import Mathlib

/-!
# Verification of the fixed-timestep N-body simulation (examples/nbody.rs)

This file gives a shallow embedding of the simulation core of the repository:
the clock accumulator (`Simulation`), the pairwise gravitational force pass,
the 4th-order Yoshida symplectic integrator, and the trail recording, and
proves the specified properties about them.

Floating-point scalars (`f32`) are modelled by an arbitrary linear ordered
field `α` (instantiated with `ℚ` or `ℝ` in concrete statements); the `sqrt`
intrinsic is passed as an explicit function parameter, and the value
`2f32.cbrt()` appearing in the Yoshida coefficient table is either abstracted
as a parameter `ξ` or instantiated with the real cube root of two.
-/

namespace NBody

variable {α : Type*} [LinearOrderedField α]

/-- Clock accumulator state, from `struct Simulation` in the source. -/
structure Simulation (α : Type*) where
  accumulator : α
  seconds_since_startup : α
  is_paused : Bool
  scale : α
  timestep : α
  deriving DecidableEq

/-- Source `impl Default for Simulation`: accumulator 0, not paused, scale `5e4`,
timestep `1/30`. -/
def Simulation.default : Simulation α :=
  { accumulator := 0
    seconds_since_startup := 0
    is_paused := false
    scale := 50000
    timestep := 1 / 30 }

/-- Source `Simulation::update`: add the frame delta to the accumulator unless paused. -/
def Simulation.update (s : Simulation α) (delta : α) : Simulation α :=
  if ¬s.is_paused then { s with accumulator := s.accumulator + delta } else s

/-- Source `Simulation::step`: if not paused and the accumulator strictly exceeds the
timestep, consume one timestep and return `some (timestep * scale)`; otherwise
return `none` and leave the state untouched. -/
def Simulation.step (s : Simulation α) : Option α × Simulation α :=
  if ¬s.is_paused ∧ s.timestep < s.accumulator then
    (some (s.timestep * s.scale), { s with accumulator := s.accumulator - s.timestep })
  else
    (none, s)

/-- Repeatedly call `step` (as the source's `while let Some(dt)` loop does),
collecting the returned `dt` values, with a fuel bound on the iteration count. -/
def simDrain : ℕ → Simulation α → List α × Simulation α
  | 0, s => ([], s)
  | fuel + 1, s =>
    match s.step with
    | (some dt, s2) =>
      let r := simDrain fuel s2
      (dt :: r.1, r.2)
    | (none, s2) => ([], s2)

/-! ### Bodies and the pairwise gravitational force pass -/

/-- A 3-vector of scalars, modelling glam's `Vec3` componentwise. -/
abbrev V3 (α : Type*) := α × α × α

/-- Source `Vec3::length_squared`: the dot product of the vector with itself. -/
def normSq (v : V3 α) : α := v.1 * v.1 + v.2.1 * v.2.1 + v.2.2 * v.2.2

/-- Source `struct Body`: mass with transient acceleration, velocity
and position vectors. -/
@[ext]
structure Body (α : Type*) where
  mass : α
  acceleration : V3 α
  velocity : V3 α
  position : V3 α
  deriving DecidableEq

instance : Inhabited (Body α) :=
  ⟨⟨0, (0, 0, 0), (0, 0, 0), (0, 0, 0)⟩⟩

/-- Source `const G: f32 = 6.674_30E-11`. -/
def G : α := 667430 / 10 ^ 16

/-- Source `const EPSILON: f32 = 1.`. -/
def EPSILON : α := 1

/-- The acceleration contribution computed for the ordered pair `(b1, b2)` of
the inner force loop: `offset = b2.position - b1.position`,
`da = (G * b2.mass / (offset.length_squared() + EPSILON)) * offset / sqrt(...)`,
with the square-root intrinsic passed in as `sqrt`. -/
def contrib (sqrt : α → α) (b1 b2 : Body α) : V3 α :=
  let offset := b2.position - b1.position
  let distance_squared := normSq offset
  let normalized_offset := (sqrt distance_squared)⁻¹ • offset
  (G * b2.mass / (distance_squared + EPSILON)) • normalized_offset

/-- One iteration of the inner force loop at index pair `p`: read both bodies,
add the computed contribution to the first and subtract that same value from
the second. -/
def pairUpdate (sqrt : α → α) (bs : List (Body α)) (p : ℕ × ℕ) : List (Body α) :=
  let b1 := bs.getD p.1 default
  let b2 := bs.getD p.2 default
  let da := contrib sqrt b1 b2
  (bs.set p.1 { b1 with acceleration := b1.acceleration + da }).set p.2
    { b2 with acceleration := b2.acceleration - da }

/-- The index pairs `(index1, index2)` with `index1 < index2 < n`, in the order
the source's two nested loops (via `split_at_mut`) visit them. -/
def pairList (n : ℕ) : List (ℕ × ℕ) :=
  (List.range n).flatMap fun i => (List.range' (i + 1) (n - (i + 1))).map fun j => (i, j)

/-- The force pass (`// Update accelerations` in the source): fold the pair
update over every pair of distinct indices, each unordered pair visited once. -/
def forcePass (sqrt : α → α) (bs : List (Body α)) : List (Body α) :=
  (pairList bs.length).foldl (pairUpdate sqrt) bs

/-- The contribution at an index pair, read off the current body list. -/
def daAt (sqrt : α → α) (bs : List (Body α)) (p : ℕ × ℕ) : V3 α :=
  contrib sqrt (bs.getD p.1 default) (bs.getD p.2 default)

/-- The net acceleration increment the spec prescribes for body `k`: the
computed contribution for every pair in which `k` comes first, minus that same
contribution (Newton's third law, reused not recomputed) for every pair in
which `k` comes second; every unordered pair appears exactly once. -/
def specAccel (sqrt : α → α) (bs : List (Body α)) (k : ℕ) : V3 α :=
  ((List.range' (k + 1) (bs.length - (k + 1))).map fun j =>
    contrib sqrt (bs.getD k default) (bs.getD j default)).sum
    - ((List.range k).map fun i =>
      contrib sqrt (bs.getD i default) (bs.getD k default)).sum

/-- The force pass as the spec describes it: each body keeps its mass,
position and velocity, and its acceleration accumulates `specAccel`. -/
def specForcePass (sqrt : α → α) (bs : List (Body α)) : List (Body α) :=
  (List.range bs.length).map fun k =>
    let b := bs.getD k default
    { b with acceleration := b.acceleration + specAccel sqrt bs k }

/-! ### Yoshida coefficient table (the lazy_static block of the source)

The source computes the coefficients once from `2f32.cbrt()`; here the value
of the cube root of two is abstracted as a parameter `ξ` so that the table
stays computable over any field, and it is instantiated with the real cube
root of two in the claim about the coefficient values. -/

def W0 (ξ : α) : α := -ξ / (2 - ξ)

def W1 (ξ : α) : α := 1 / (2 - ξ)

def C1 (ξ : α) : α := W1 ξ / 2

def C2 (ξ : α) : α := (W0 ξ + W1 ξ) / 2

def C3 (ξ : α) : α := C2 ξ

def C4 (ξ : α) : α := C1 ξ

def CS (ξ : α) : Fin 4 → α := ![C1 ξ, C2 ξ, C3 ξ, C4 ξ]

def D1 (ξ : α) : α := W1 ξ

def D2 (ξ : α) : α := W0 ξ

def D3 (ξ : α) : α := D1 ξ

def DS (ξ : α) : Fin 3 → α := ![D1 ξ, D2 ξ, D3 ξ]

/-- The exact real value modelled by `2f32.cbrt()`: the cube root of two. -/
noncomputable def cbrtTwo : ℝ := (2 : ℝ) ^ ((1 : ℝ) / 3)

/-! ### The Yoshida symplectic integrator (the body of the while-let loop) -/

/-- One substep of the source loop `for substep in 0..3`: in a single pass
zero each body's acceleration and drift its position by
`CS[substep] * velocity * dt`; run the force pass; then in a single pass kick
each body's velocity by `DS[substep] * acceleration * dt` and, when
`substep == 2`, immediately drift its position once more by
`C4 * velocity * dt` using the just-updated velocity. -/
def substepPass (ξ : α) (sqrt : α → α) (k : Fin 3) (dt : α) (bs : List (Body α)) :
    List (Body α) :=
  let bs1 := bs.map fun b =>
    { b with
      acceleration := (0 : V3 α)
      position := b.position + dt • (CS ξ k.castSucc • b.velocity) }
  let bs2 := forcePass sqrt bs1
  bs2.map fun b =>
    let v := b.velocity + dt • (DS ξ k • b.acceleration)
    { b with
      velocity := v
      position := if k = 2 then b.position + dt • (C4 ξ • v) else b.position }

/-- One fixed physics step: the three substeps in order. -/
def physicsStep (ξ : α) (sqrt : α → α) (dt : α) (bs : List (Body α)) : List (Body α) :=
  ([0, 1, 2] : List (Fin 3)).foldl (fun b k => substepPass ξ sqrt k dt b) bs

/-- Spec phase 1: zero every body's acceleration. -/
def zeroAccel (bs : List (Body α)) : List (Body α) :=
  bs.map fun b => { b with acceleration := (0 : V3 α) }

/-- Spec phases 2 and 5: drift every position by `c * velocity * dt`. -/
def drift (c dt : α) (bs : List (Body α)) : List (Body α) :=
  bs.map fun b => { b with position := b.position + dt • (c • b.velocity) }

/-- Spec phase 4: kick every velocity by `d * acceleration * dt`. -/
def kick (d dt : α) (bs : List (Body α)) : List (Body α) :=
  bs.map fun b => { b with velocity := b.velocity + dt • (d • b.acceleration) }

/-- One substep exactly as the spec words it: zero accelerations, drift with
`C[substep]`, force pass, kick with `D[substep]`, and on the final substep one
additional whole-pass drift with `C[3]`. -/
def specSubstep (ξ : α) (sqrt : α → α) (k : Fin 3) (dt : α) (bs : List (Body α)) :
    List (Body α) :=
  let s1 := zeroAccel bs
  let s2 := drift (CS ξ k.castSucc) dt s1
  let s3 := forcePass sqrt s2
  let s4 := kick (DS ξ k) dt s3
  if k = 2 then drift (CS ξ 3) dt s4 else s4

/-- One fixed physics step as the spec words it: exactly three substeps,
indexed 0, 1, 2, run in order. -/
def specPhysicsStep (ξ : α) (sqrt : α → α) (dt : α) (bs : List (Body α)) : List (Body α) :=
  specSubstep ξ sqrt 2 dt (specSubstep ξ sqrt 1 dt (specSubstep ξ sqrt 0 dt bs))

/-! ### The full while-let loop: clock plus integrator -/

/-- The joint state mutated by the system: the collected bodies and the clock. -/
structure NState (α : Type*) where
  bodies : List (Body α)
  sim : Simulation α
  deriving DecidableEq

/-- The `while let Some(dt) = simulation.step()` loop: on every `some dt`, run
one full physics step over the bodies, with a fuel bound on iterations. -/
def runSteps (ξ : α) (sqrt : α → α) : ℕ → NState α → List α × NState α
  | 0, st => ([], st)
  | fuel + 1, st =>
    match st.sim.step with
    | (some dt, s2) =>
      let r := runSteps ξ sqrt fuel ⟨physicsStep ξ sqrt dt st.bodies, s2⟩
      (dt :: r.1, r.2)
    | (none, _) => ([], st)

/-- A sequence of frames: each frame adds its wall-clock delta via `update`
and then drains the accumulator through the while-let loop. -/
def runFrames (ξ : α) (sqrt : α → α) (fuel : ℕ) : List α → NState α → List α × NState α
  | [], st => ([], st)
  | d :: ds, st =>
    let r1 := runSteps ξ sqrt fuel { st with sim := st.sim.update d }
    let r2 := runFrames ξ sqrt fuel ds r1.2
    (r1.1 ++ r2.1, r2.2)

/-! ### Trail recording -/

/-- Source `const TRAIL_LENGTH: usize = 128`. -/
def TRAIL_LENGTH : ℕ := 128

/-- Modelled from the spec: push on the ringbuffer crate's
`ConstGenericRingBuffer` (external to this repository); per spec section 3 the
buffer has fixed capacity, overwrites the oldest entry once full, and holds
its contents oldest-first. -/
def trailPush {β : Type*} (cap : ℕ) (t : List β) (x : β) : List β :=
  if t.length < cap then t ++ [x] else t.tail ++ [x]

/-- Push a whole sequence of samples in order. -/
def trailPushAll {β : Type*} (cap : ℕ) (t : List β) (L : List β) : List β :=
  L.foldl (trailPush cap) t

/-! ### The whole per-frame system -/

/-- Modelled from the spec: bevy's repeating `Timer` resource with its fixed
interval (external to this repository); per spec section 4.4 the recorder
advances the timer by the frame's elapsed wall time and reports whether the
interval elapsed, wrapping the excess into the next period. -/
structure TrailTimer (α : Type*) where
  elapsed : α
  duration : α
  deriving DecidableEq

/-- Source `timer.tick(delta)` followed by `timer.just_finished()`. -/
def TrailTimer.tick (tm : TrailTimer α) (d : α) : TrailTimer α × Bool :=
  let e := tm.elapsed + d
  if tm.duration ≤ e then ({ tm with elapsed := e - tm.duration }, true)
  else ({ tm with elapsed := e }, false)

/-- One row of the system's query: a body with its trail ring buffer and its
published polyline vertices. -/
structure BodyEntity (α : Type*) where
  body : Body α
  trail : List (V3 α)
  poly_line : List (V3 α)
  deriving DecidableEq

/-- The whole state touched by `nbody_system`. -/
structure SysState (α : Type*) where
  entities : List (BodyEntity α)
  sim : Simulation α
  timer : TrailTimer α
  deriving DecidableEq

/-- One invocation of `nbody_system` for a frame with elapsed wall time `e`:
update the clock, drain it through the integrator while-loop, then tick the
trail timer and, if it just finished, push every body's current position onto
its trail and republish the trail as the polyline's vertices. -/
def frame (ξ : α) (sqrt : α → α) (fuel : ℕ) (e : α) (st : SysState α) : SysState α :=
  let r := runSteps ξ sqrt fuel ⟨st.entities.map (fun ent => ent.body), st.sim.update e⟩
  let entities1 := List.zipWith (fun ent b => { ent with body := b }) st.entities r.2.bodies
  let t := st.timer.tick e
  let entities2 :=
    if t.2 then
      entities1.map fun ent =>
        let tr := trailPush TRAIL_LENGTH ent.trail ent.body.position
        { ent with
          trail := tr
          poly_line := tr }
    else entities1
  ⟨entities2, r.2.sim, t.1⟩

/-! ### Theorems -/

theorem step_of_cond (s : Simulation α) (h : ¬s.is_paused ∧ s.timestep < s.accumulator) :
    s.step = (some (s.timestep * s.scale), { s with accumulator := s.accumulator - s.timestep }) := by
  simp [Simulation.step, h]

theorem step_of_not_cond (s : Simulation α) (h : ¬(¬s.is_paused ∧ s.timestep < s.accumulator)) :
    s.step = (none, s) := by
  simp only [Simulation.step, if_neg h]

theorem step_none_of_fst_none (s : Simulation α) (h : (s.step).1 = none) :
    s.step = (none, s) := by
  by_cases hc : ¬s.is_paused ∧ s.timestep < s.accumulator
  · rw [step_of_cond s hc] at h
    simp at h
  · exact step_of_not_cond s hc

theorem simDrain_preserve (fuel : ℕ) (s : Simulation α) :
    (simDrain fuel s).2.is_paused = s.is_paused ∧
    (simDrain fuel s).2.timestep = s.timestep ∧
    (simDrain fuel s).2.scale = s.scale := by
  induction fuel generalizing s with
  | zero => simp [simDrain]
  | succ n ih =>
    by_cases hc : ¬s.is_paused ∧ s.timestep < s.accumulator
    · simp only [simDrain, step_of_cond s hc]
      exact ih _
    · simp [simDrain, step_of_not_cond s hc]

theorem simDrain_acc_nonneg (fuel : ℕ) (s : Simulation α) (h : 0 ≤ s.accumulator) :
    0 ≤ (simDrain fuel s).2.accumulator := by
  induction fuel generalizing s with
  | zero => simpa [simDrain] using h
  | succ n ih =>
    by_cases hc : ¬s.is_paused ∧ s.timestep < s.accumulator
    · simp only [simDrain, step_of_cond s hc]
      exact ih _ (by simpa using le_of_lt (sub_pos.mpr hc.2))
    · simpa [simDrain, step_of_not_cond s hc] using h

theorem update_preserve (s : Simulation α) (delta : α) :
    (s.update delta).is_paused = s.is_paused ∧ (s.update delta).timestep = s.timestep := by
  by_cases hp : s.is_paused <;> simp [Simulation.update, hp]

/-- C3: `update(elapsed)` adds `elapsed` to the accumulator iff not paused, and
`step()` subtracts the timestep and returns `some (timestep * scale)` iff not
paused and the accumulator strictly exceeds the timestep; in every other case,
and in particular whenever `is_paused` is true, `step()` returns `none` and
leaves the whole state (accumulator included) unmodified. -/
theorem claim3_update_step_contract (s : Simulation α) (delta : α) :
    s.update delta = (if s.is_paused then s else { s with accumulator := s.accumulator + delta }) ∧
    s.step = (if s.is_paused then (none, s)
      else if s.timestep < s.accumulator then
        (some (s.timestep * s.scale), { s with accumulator := s.accumulator - s.timestep })
      else (none, s)) := by
  constructor
  · by_cases hp : s.is_paused <;> simp [Simulation.update, hp]
  · by_cases hp : s.is_paused <;> by_cases hlt : s.timestep < s.accumulator <;>
      simp [Simulation.step, hp, hlt]

/-- C4 (counterexample): from the default state (accumulator 0, timestep 1/30,
not paused), updating with elapsed time exactly 1/30 and exhausting `step()`
(which immediately returns `none` since `1/30 > 1/30` is false) leaves the
accumulator equal to the timestep, refuting the strict bound
`accumulator < timestep`. -/
theorem claim4_counterexample :
    (Simulation.default (α := ℚ)).is_paused = false ∧
    0 ≤ (Simulation.default (α := ℚ)).accumulator ∧
    0 ≤ (1 / 30 : ℚ) ∧
    ((simDrain 3 ((Simulation.default (α := ℚ)).update (1 / 30))).2.step).1 = none ∧
    ¬((simDrain 3 ((Simulation.default (α := ℚ)).update (1 / 30))).2.accumulator
        < (simDrain 3 ((Simulation.default (α := ℚ)).update (1 / 30))).2.timestep) := by
  norm_num [Simulation.default, Simulation.update, Simulation.step, simDrain]

/-- C4 (amended): for every non-paused run starting from a nonnegative
accumulator, after `update` with a nonnegative elapsed time followed by
exhaustive `step()` calls, the accumulator satisfies
`0 ≤ accumulator ≤ timestep` (the upper bound is attained exactly when the
accumulator lands on the timestep, since `step()` requires a strict excess). -/
theorem claim4_accumulator_bounds (s : Simulation α) (e : α) (fuel : ℕ)
    (hp : s.is_paused = false) (ha : 0 ≤ s.accumulator) (he : 0 ≤ e)
    (hdone : ((simDrain fuel (s.update e)).2.step).1 = none) :
    0 ≤ (simDrain fuel (s.update e)).2.accumulator ∧
    (simDrain fuel (s.update e)).2.accumulator ≤ s.timestep := by
  have hup : (s.update e).accumulator = s.accumulator + e := by
    simp [Simulation.update, hp]
  have hnn : 0 ≤ (simDrain fuel (s.update e)).2.accumulator :=
    simDrain_acc_nonneg fuel _ (by rw [hup]; exact add_nonneg ha he)
  refine ⟨hnn, ?_⟩
  have hpres := simDrain_preserve fuel (s.update e)
  have hpres2 := update_preserve s e
  have hfp : (simDrain fuel (s.update e)).2.is_paused = false := by
    rw [hpres.1, hpres2.1, hp]
  have hft : (simDrain fuel (s.update e)).2.timestep = s.timestep := by
    rw [hpres.2.1, hpres2.2]
  set f := (simDrain fuel (s.update e)).2 with hf
  by_cases hc : ¬f.is_paused ∧ f.timestep < f.accumulator
  · rw [step_of_cond f hc] at hdone
    simp at hdone
  · push_neg at hc
    rw [← hft]
    exact hc (by simp [hfp])

/-- C4 witness: concrete non-paused run over `ℚ` reaching the amended bounds. -/
theorem claim4_accumulator_bounds_witness :
    ((simDrain 5 ((Simulation.default (α := ℚ)).update (1 / 15))).2.step).1 = none ∧
    (0 ≤ (simDrain 5 ((Simulation.default (α := ℚ)).update (1 / 15))).2.accumulator ∧
      (simDrain 5 ((Simulation.default (α := ℚ)).update (1 / 15))).2.accumulator
        ≤ (Simulation.default (α := ℚ)).timestep) :=
  ⟨by norm_num [Simulation.default, Simulation.update, Simulation.step, simDrain],
    claim4_accumulator_bounds (Simulation.default (α := ℚ)) (1 / 15) 5
      (by norm_num [Simulation.default]) (by norm_num [Simulation.default]) (by norm_num)
      (by norm_num [Simulation.default, Simulation.update, Simulation.step, simDrain])⟩

/-- C8: from any state in which `step()` returns `none`, calling `update 0`
and then `step()` repeatedly never returns `some`, and the accumulator is left
unchanged by the zero-length update. -/
theorem claim8_zero_frame_idempotent (s : Simulation α)
    (h : (s.step).1 = none) (fuel : ℕ) :
    (simDrain fuel (s.update 0)).1 = [] ∧ (s.update 0).accumulator = s.accumulator := by
  have hu : s.update 0 = s := by
    obtain ⟨a, b, p, sc, t⟩ := s
    by_cases hp : p <;> simp [Simulation.update, hp]
  rw [hu]
  refine ⟨?_, rfl⟩
  cases fuel with
  | zero => simp [simDrain]
  | succ n => simp [simDrain, step_none_of_fst_none s h]

/-- C8 witness: the default state (accumulator 0) is already drained; a
zero-length frame produces no steps. -/
theorem claim8_zero_frame_idempotent_witness :
    ((Simulation.default (α := ℚ)).step).1 = none ∧
    ((simDrain 4 ((Simulation.default (α := ℚ)).update 0)).1 = [] ∧
      ((Simulation.default (α := ℚ)).update 0).accumulator
        = (Simulation.default (α := ℚ)).accumulator) :=
  ⟨by norm_num [Simulation.default, Simulation.step],
    claim8_zero_frame_idempotent (Simulation.default (α := ℚ))
      (by norm_num [Simulation.default, Simulation.step]) 4⟩

/-- C9: the code has no validating constructor: `Simulation` is a plain struct
whose fields are set directly (via `Default` or a struct literal), so a
malformed configuration with `timestep = 0` is accepted and tolerated
mid-simulation; `step()` on such a state succeeds, returning `some 0` while
never decreasing the accumulator, rather than failing with a configuration
error. -/
theorem claim9_malformed_config_accepted :
    (Simulation.mk 1 0 false 1 0 : Simulation ℚ).step
      = (some 0, Simulation.mk 1 0 false 1 0) := by
  norm_num [Simulation.step]

theorem contrib_congr (sqrt : α → α) {b1 b2 b1' b2' : Body α}
    (h1 : b1.position = b1'.position) (h2 : b2.position = b2'.position)
    (hm : b2.mass = b2'.mass) : contrib sqrt b1 b2 = contrib sqrt b1' b2' := by
  simp [contrib, h1, h2, hm]

theorem pairUpdate_length (sqrt : α → α) (bs : List (Body α)) (p : ℕ × ℕ) :
    (pairUpdate sqrt bs p).length = bs.length := by
  simp [pairUpdate]

theorem getD_pairUpdate (sqrt : α → α) (bs : List (Body α)) {p : ℕ × ℕ}
    (hp1 : p.1 < bs.length) (hp2 : p.2 < bs.length) (k : ℕ) :
    (pairUpdate sqrt bs p).getD k default =
      if k = p.2 then
        { bs.getD p.2 default with
            acceleration := (bs.getD p.2 default).acceleration - daAt sqrt bs p }
      else if k = p.1 then
        { bs.getD p.1 default with
            acceleration := (bs.getD p.1 default).acceleration + daAt sqrt bs p }
      else bs.getD k default := by
  by_cases h2 : k = p.2
  · subst h2
    rw [if_pos rfl]
    rw [show pairUpdate sqrt bs p
        = (bs.set p.1 { bs.getD p.1 default with
            acceleration := (bs.getD p.1 default).acceleration + daAt sqrt bs p }).set p.2
          { bs.getD p.2 default with
            acceleration := (bs.getD p.2 default).acceleration - daAt sqrt bs p } from rfl]
    rw [List.getD_eq_getElem?_getD, List.getElem?_set_self (by simpa using hp2)]
    rfl
  · rw [if_neg h2]
    have hstep : (pairUpdate sqrt bs p).getD k default
        = ((bs.set p.1 { bs.getD p.1 default with
            acceleration := (bs.getD p.1 default).acceleration + daAt sqrt bs p })).getD k default := by
      rw [show pairUpdate sqrt bs p
          = (bs.set p.1 { bs.getD p.1 default with
              acceleration := (bs.getD p.1 default).acceleration + daAt sqrt bs p }).set p.2
            { bs.getD p.2 default with
              acceleration := (bs.getD p.2 default).acceleration - daAt sqrt bs p } from rfl]
      rw [List.getD_eq_getElem?_getD, List.getElem?_set_ne (fun h => h2 h.symm),
        ← List.getD_eq_getElem?_getD]
    rw [hstep]
    by_cases h1 : k = p.1
    · subst h1
      rw [if_pos rfl, List.getD_eq_getElem?_getD, List.getElem?_set_self hp1]
      rfl
    · rw [if_neg h1, List.getD_eq_getElem?_getD, List.getElem?_set_ne (fun h => h1 h.symm),
        ← List.getD_eq_getElem?_getD]

theorem foldl_pairUpdate_spec (sqrt : α → α) (L : List (ℕ × ℕ)) :
    ∀ bs : List (Body α), (∀ p ∈ L, p.1 < p.2 ∧ p.2 < bs.length) →
      (L.foldl (pairUpdate sqrt) bs).length = bs.length ∧
      ∀ k : ℕ,
        ((L.foldl (pairUpdate sqrt) bs).getD k default).mass = (bs.getD k default).mass ∧
        ((L.foldl (pairUpdate sqrt) bs).getD k default).position
          = (bs.getD k default).position ∧
        ((L.foldl (pairUpdate sqrt) bs).getD k default).velocity
          = (bs.getD k default).velocity ∧
        ((L.foldl (pairUpdate sqrt) bs).getD k default).acceleration
          = (bs.getD k default).acceleration
            + ((L.filter fun q => q.1 == k).map (daAt sqrt bs)).sum
            - ((L.filter fun q => q.2 == k).map (daAt sqrt bs)).sum := by
  induction L with
  | nil => intro bs _; simp
  | cons p L ih =>
    intro bs hb
    have hp := hb p (List.mem_cons_self p L)
    have hp1 : p.1 < bs.length := lt_trans hp.1 hp.2
    have hlen : (pairUpdate sqrt bs p).length = bs.length := pairUpdate_length sqrt bs p
    have hbnd : ∀ q ∈ L, q.1 < q.2 ∧ q.2 < (pairUpdate sqrt bs p).length := by
      intro q hq
      rw [hlen]
      exact hb q (List.mem_cons_of_mem p hq)
    obtain ⟨ihlen, ihk⟩ := ih (pairUpdate sqrt bs p) hbnd
    have hpresm : ∀ j, ((pairUpdate sqrt bs p).getD j default).mass
        = (bs.getD j default).mass := by
      intro j
      rw [getD_pairUpdate sqrt bs hp1 hp.2 j]
      split_ifs with h1 h2
      · rw [h1]
      · rw [h2]
      · rfl
    have hpresp : ∀ j, ((pairUpdate sqrt bs p).getD j default).position
        = (bs.getD j default).position := by
      intro j
      rw [getD_pairUpdate sqrt bs hp1 hp.2 j]
      split_ifs with h1 h2
      · rw [h1]
      · rw [h2]
      · rfl
    have hpresv : ∀ j, ((pairUpdate sqrt bs p).getD j default).velocity
        = (bs.getD j default).velocity := by
      intro j
      rw [getD_pairUpdate sqrt bs hp1 hp.2 j]
      split_ifs with h1 h2
      · rw [h1]
      · rw [h2]
      · rfl
    have hda : ∀ q, daAt sqrt (pairUpdate sqrt bs p) q = daAt sqrt bs q := by
      intro q
      exact contrib_congr sqrt (hpresp q.1) (hpresp q.2) (hpresm q.2)
    constructor
    · rw [List.foldl_cons, ihlen, hlen]
    · intro k
      obtain ⟨ihm, ihpo, ihv, iha⟩ := ihk k
      rw [List.foldl_cons]
      have hsum1 : ((L.filter fun q => q.1 == k).map (daAt sqrt (pairUpdate sqrt bs p))).sum
          = ((L.filter fun q => q.1 == k).map (daAt sqrt bs)).sum :=
        congrArg List.sum (List.map_congr_left fun q _ => hda q)
      have hsum2 : ((L.filter fun q => q.2 == k).map (daAt sqrt (pairUpdate sqrt bs p))).sum
          = ((L.filter fun q => q.2 == k).map (daAt sqrt bs)).sum :=
        congrArg List.sum (List.map_congr_left fun q _ => hda q)
      refine ⟨by rw [ihm, hpresm k], by rw [ihpo, hpresp k], by rw [ihv, hpresv k], ?_⟩
      rw [iha, hsum1, hsum2, getD_pairUpdate sqrt bs hp1 hp.2 k,
        List.filter_cons, List.filter_cons]
      by_cases h2 : k = p.2
      · subst h2
        rw [if_pos rfl]
        simp only [List.filter_cons, beq_iff_eq]
        rw [if_neg (show ¬p.1 = p.2 by omega), if_pos trivial]
        simp only [List.map_cons, List.sum_cons]
        abel
      · by_cases h1 : k = p.1
        · subst h1
          rw [if_neg h2, if_pos rfl]
          simp only [List.filter_cons, beq_iff_eq]
          rw [if_pos trivial, if_neg (show ¬p.2 = p.1 by omega)]
          simp only [List.map_cons, List.sum_cons]
          abel
        · rw [if_neg h2, if_neg h1]
          simp only [List.filter_cons, beq_iff_eq]
          rw [if_neg (fun h => h1 h.symm), if_neg (fun h => h2 h.symm)]

theorem pairList_mem {n : ℕ} {p : ℕ × ℕ} : p ∈ pairList n ↔ p.1 < p.2 ∧ p.2 < n := by
  unfold pairList
  rw [List.mem_flatMap]
  constructor
  · rintro ⟨i, hi, hmem⟩
    rw [List.mem_map] at hmem
    obtain ⟨j, hj, rfl⟩ := hmem
    rw [List.mem_range] at hi
    rw [List.mem_range'] at hj
    obtain ⟨t, ht, rfl⟩ := hj
    refine ⟨?_, ?_⟩ <;> simp <;> omega
  · rintro ⟨h1, h2⟩
    exact ⟨p.1, List.mem_range.mpr (by omega),
      List.mem_map.mpr ⟨p.2, List.mem_range'.mpr ⟨p.2 - (p.1 + 1), by omega, by omega⟩, rfl⟩⟩

theorem flatMap_ite_eq {γ : Type*} (g : ℕ → List γ) (k n : ℕ) :
    ((List.range n).flatMap fun i => if i = k then g i else []) =
      if k < n then g k else [] := by
  induction n with
  | zero => simp
  | succ m ih =>
    rw [List.range_succ, List.flatMap_append, ih]
    by_cases h1 : k < m
    · rw [if_pos h1, if_pos (by omega)]
      have hm : ¬(m = k) := by omega
      simp [hm]
    · by_cases h2 : m = k
      · subst h2
        rw [if_neg h1, if_pos (by omega)]
        simp
      · rw [if_neg h1, if_neg (by omega)]
        simp [h2]

theorem range'_filter_beq (k : ℕ) :
    ∀ (len s : ℕ), (List.range' s len).filter (fun j => j == k) =
      if s ≤ k ∧ k < s + len then [k] else [] := by
  intro len
  induction len with
  | zero =>
    intro s
    rw [show List.range' s 0 = [] from rfl, List.filter_nil, if_neg (by omega)]
  | succ m ih =>
    intro s
    rw [List.range'_succ, List.filter_cons]
    by_cases h : s = k
    · subst h
      rw [if_pos (by simp), ih (s + 1), if_neg (by omega), if_pos (by omega)]
    · rw [if_neg (by simp [h]), ih (s + 1)]
      by_cases h2 : s + 1 ≤ k ∧ k < s + 1 + m
      · rw [if_pos h2, if_pos (by omega)]
      · rw [if_neg h2, if_neg (by omega)]

theorem pairList_filter_fst {n k : ℕ} (hk : k < n) :
    (pairList n).filter (fun q => q.1 == k) =
      (List.range' (k + 1) (n - (k + 1))).map fun j => (k, j) := by
  unfold pairList
  rw [List.filter_flatMap]
  have h1 : ∀ i : ℕ,
      ((List.range' (i + 1) (n - (i + 1))).map fun j => (i, j)).filter (fun q => q.1 == k)
        = if i = k then (List.range' (i + 1) (n - (i + 1))).map (fun j => (i, j)) else [] := by
    intro i
    rw [List.filter_map]
    by_cases h : i = k
    · subst h
      rw [if_pos rfl]
      have hc : ((fun q : ℕ × ℕ => q.1 == i) ∘ fun j => (i, j)) = fun _ => true := by
        funext j
        simp
      rw [hc, List.filter_true]
    · rw [if_neg h]
      have hc : ((fun q : ℕ × ℕ => q.1 == k) ∘ fun j => (i, j)) = fun _ => false := by
        funext j
        simp [h]
      rw [hc, List.filter_false, List.map_nil]
  simp only [h1]
  rw [flatMap_ite_eq (fun i => (List.range' (i + 1) (n - (i + 1))).map fun j => (i, j)) k n,
    if_pos hk]

theorem flatMap_range_lt {γ : Type*} (f : ℕ → γ) (k : ℕ) :
    ∀ n : ℕ, ((List.range n).flatMap fun i => if i < k then [f i] else []) =
      (List.range (min k n)).map f := by
  intro n
  induction n with
  | zero => simp
  | succ m ih =>
    rw [List.range_succ, List.flatMap_append, ih]
    by_cases h : m < k
    · rw [show min k m = m by omega, show min k (m + 1) = m + 1 by omega, List.range_succ,
        List.map_append]
      simp [h]
    · rw [show min k m = k by omega, show min k (m + 1) = k by omega]
      simp [h]

theorem pairList_filter_snd {n k : ℕ} (hk : k < n) :
    (pairList n).filter (fun q => q.2 == k) = (List.range k).map fun i => (i, k) := by
  unfold pairList
  rw [List.filter_flatMap]
  have h1 : ∀ i : ℕ,
      ((List.range' (i + 1) (n - (i + 1))).map fun j => (i, j)).filter (fun q => q.2 == k)
        = if i < k then [(i, k)] else [] := by
    intro i
    rw [List.filter_map]
    have hc : ((fun q : ℕ × ℕ => q.2 == k) ∘ fun j => (i, j)) = fun j => j == k := by
      funext j
      simp
    rw [hc, range'_filter_beq k (n - (i + 1)) (i + 1)]
    by_cases h : i < k
    · rw [if_pos (by omega), if_pos h, List.map_cons, List.map_nil]
    · rw [if_neg (by omega), if_neg h, List.map_nil]
  simp only [h1]
  rw [flatMap_range_lt (fun i => (i, k)) k n, show min k n = k by omega]

/-- C2: in a force pass every unordered pair of distinct bodies is evaluated
exactly once (the triangular loop); for the pair `(i, j)` as visited (with `i`
first), body `i` receives the contribution
`G * mass[j] / (|p[j] - p[i]|² + EPSILON)` times the unit offset from `i` to
`j`, and body `j` receives exactly the negation of that same computed value
(not recomputed); `G = 6.67430e-11` and `EPSILON = 1`. Equivalently, the
source's fold over the triangular pair list equals the per-body signed-sum
description `specForcePass`. -/
theorem claim2_force_pass_newton_pairs (sqrt : α → α) (bs : List (Body α)) :
    forcePass sqrt bs = specForcePass sqrt bs ∧
    (G : α) = 667430 / 10 ^ 16 ∧ (EPSILON : α) = 1 ∧
    ∀ b1 b2 : Body α,
      contrib sqrt b1 b2
        = (G * b2.mass / (normSq (b2.position - b1.position) + EPSILON))
            • ((sqrt (normSq (b2.position - b1.position)))⁻¹
                • (b2.position - b1.position)) := by
  refine ⟨?_, rfl, rfl, fun b1 b2 => rfl⟩
  obtain ⟨hlen, hk⟩ := foldl_pairUpdate_spec sqrt (pairList bs.length) bs
    (fun p hp => pairList_mem.mp hp)
  have hlen2 : (specForcePass sqrt bs).length = bs.length := by
    simp [specForcePass]
  apply List.ext_getElem (by rw [show forcePass sqrt bs
    = (pairList bs.length).foldl (pairUpdate sqrt) bs from rfl, hlen, hlen2])
  intro i hi1 hi2
  have hin : i < bs.length := by
    rw [show forcePass sqrt bs = (pairList bs.length).foldl (pairUpdate sqrt) bs from rfl,
      hlen] at hi1
    exact hi1
  obtain ⟨hm, hpo, hv, ha⟩ := hk i
  have hgl : (forcePass sqrt bs)[i] = (forcePass sqrt bs).getD i default :=
    (List.getD_eq_getElem _ _ hi1).symm
  have hgr : (specForcePass sqrt bs)[i]
      = { bs.getD i default with
            acceleration := (bs.getD i default).acceleration + specAccel sqrt bs i } := by
    simp only [specForcePass, List.getElem_map, List.getElem_range]
  rw [hgl, hgr]
  have hsum1 : ((pairList bs.length).filter fun q => q.1 == i).map (daAt sqrt bs)
      = (List.range' (i + 1) (bs.length - (i + 1))).map fun j =>
        contrib sqrt (bs.getD i default) (bs.getD j default) := by
    rw [pairList_filter_fst hin, List.map_map]
    rfl
  have hsum2 : ((pairList bs.length).filter fun q => q.2 == i).map (daAt sqrt bs)
      = (List.range i).map fun j =>
        contrib sqrt (bs.getD j default) (bs.getD i default) := by
    rw [pairList_filter_snd hin, List.map_map]
    rfl
  apply Body.ext
  · exact hm
  · rw [show forcePass sqrt bs = (pairList bs.length).foldl (pairUpdate sqrt) bs from rfl,
      ha, hsum1, hsum2]
    exact add_sub_assoc _ _ _
  · exact hv
  · exact hpo

/-- C6: the four position coefficients `CS` and three velocity coefficients
`DS` (modelled as immutable constants, as the lazy_static cell is written once)
satisfy `c1 = c4 = w1/2`, `c2 = c3 = (w0+w1)/2`, `d1 = d3 = w1`, `d2 = w0`,
where `w0 = -cbrt 2 / (2 - cbrt 2)` and `w1 = 1 / (2 - cbrt 2)`; moreover the
value used for `cbrt 2` really is the cube root of two. -/
theorem claim6_yoshida_coefficients :
    CS cbrtTwo = ![W1 cbrtTwo / 2, (W0 cbrtTwo + W1 cbrtTwo) / 2,
      (W0 cbrtTwo + W1 cbrtTwo) / 2, W1 cbrtTwo / 2] ∧
    DS cbrtTwo = ![W1 cbrtTwo, W0 cbrtTwo, W1 cbrtTwo] ∧
    W0 cbrtTwo = -((2 : ℝ) ^ ((1 : ℝ) / 3)) / (2 - (2 : ℝ) ^ ((1 : ℝ) / 3)) ∧
    W1 cbrtTwo = 1 / (2 - (2 : ℝ) ^ ((1 : ℝ) / 3)) ∧
    cbrtTwo ^ 3 = 2 := by
  refine ⟨rfl, rfl, rfl, rfl, ?_⟩
  have h2 : (0 : ℝ) ≤ 2 := by norm_num
  rw [cbrtTwo, ← Real.rpow_natCast ((2 : ℝ) ^ ((1 : ℝ) / 3)) 3, ← Real.rpow_mul h2]
  norm_num

theorem substepPass_eq_spec (ξ : α) (sqrt : α → α) (k : Fin 3) (dt : α)
    (bs : List (Body α)) : substepPass ξ sqrt k dt bs = specSubstep ξ sqrt k dt bs := by
  simp only [substepPass, specSubstep, zeroAccel, drift, kick, List.map_map]
  have h1 : ((fun b : Body α =>
        { b with position := b.position + dt • (CS ξ k.castSucc • b.velocity) })
      ∘ fun b : Body α => { b with acceleration := (0 : V3 α) })
      = fun b : Body α =>
        { b with
          acceleration := (0 : V3 α)
          position := b.position + dt • (CS ξ k.castSucc • b.velocity) } := by
    funext b
    rfl
  rw [h1]
  by_cases hk : k = 2
  · subst hk
    rw [if_pos rfl]
    congr 1
  · rw [if_neg hk]
    congr 1
    funext b
    simp only [if_neg hk]

/-- C1: each value handed out by the clock is `timestep * scale`, and per
fixed step the integrator is exactly the spec's 3-substep schedule: for every
substep, first reset accelerations to zero and drift by `C[substep]*v*dt`,
then the force pass over all pairs, then kick by `D[substep]*a*dt`, with one
additional drift by `C[3]*v*dt` (after the kick, using the updated velocity)
on substep 2 only. -/
theorem claim1_substep_structure (ξ : α) (sqrt : α → α) :
    (∀ s : Simulation α, (s.step).1 = none ∨ (s.step).1 = some (s.timestep * s.scale)) ∧
    ∀ (dt : α) (bs : List (Body α)),
      physicsStep ξ sqrt dt bs = specPhysicsStep ξ sqrt dt bs := by
  constructor
  · intro s
    by_cases hc : ¬s.is_paused ∧ s.timestep < s.accumulator
    · right
      rw [step_of_cond s hc]
    · left
      rw [step_of_not_cond s hc]
  · intro dt bs
    simp only [physicsStep, List.foldl_cons, List.foldl_nil]
    rw [substepPass_eq_spec, substepPass_eq_spec, substepPass_eq_spec]
    rfl

theorem runSteps_spec (ξ : α) (sqrt : α → α) (fuel : ℕ) :
    ∀ st : NState α, st.sim.is_paused = false → 0 < st.sim.timestep →
      st.sim.accumulator ≤ ((fuel : α) + 1) * st.sim.timestep →
      ∃ n : ℕ,
        runSteps ξ sqrt fuel st
          = (List.replicate n (st.sim.timestep * st.sim.scale),
             ⟨(physicsStep ξ sqrt (st.sim.timestep * st.sim.scale))^[n] st.bodies,
              { st.sim with accumulator := st.sim.accumulator - n * st.sim.timestep }⟩) ∧
        ((st.sim.accumulator ≤ st.sim.timestep ∧ n = 0) ∨
          (st.sim.timestep < st.sim.accumulator ∧
            0 < st.sim.accumulator - n * st.sim.timestep ∧
            st.sim.accumulator - n * st.sim.timestep ≤ st.sim.timestep)) := by
  induction fuel with
  | zero =>
    intro st hp ht hb
    have hb2 : st.sim.accumulator ≤ st.sim.timestep := by
      push_cast at hb
      linarith
    refine ⟨0, ?_, Or.inl ⟨hb2, rfl⟩⟩
    rw [show runSteps ξ sqrt 0 st = ([], st) from rfl]
    simp
  | succ m ih =>
    intro st hp ht hb
    by_cases hc : st.sim.timestep < st.sim.accumulator
    · have hcond : ¬st.sim.is_paused ∧ st.sim.timestep < st.sim.accumulator :=
        ⟨by simp [hp], hc⟩
      have hstep := step_of_cond st.sim hcond
      have hrun : runSteps ξ sqrt (m + 1) st
          = ((st.sim.timestep * st.sim.scale)
              :: (runSteps ξ sqrt m
                  ⟨physicsStep ξ sqrt (st.sim.timestep * st.sim.scale) st.bodies,
                   { st.sim with accumulator := st.sim.accumulator - st.sim.timestep }⟩).1,
             (runSteps ξ sqrt m
                  ⟨physicsStep ξ sqrt (st.sim.timestep * st.sim.scale) st.bodies,
                   { st.sim with accumulator := st.sim.accumulator - st.sim.timestep }⟩).2) := by
        simp only [runSteps, hstep]
      have hb2 : (⟨physicsStep ξ sqrt (st.sim.timestep * st.sim.scale) st.bodies,
          { st.sim with accumulator := st.sim.accumulator - st.sim.timestep }⟩
            : NState α).sim.accumulator
          ≤ ((m : α) + 1)
            * (⟨physicsStep ξ sqrt (st.sim.timestep * st.sim.scale) st.bodies,
                { st.sim with accumulator := st.sim.accumulator - st.sim.timestep }⟩
              : NState α).sim.timestep := by
        show st.sim.accumulator - st.sim.timestep ≤ ((m : α) + 1) * st.sim.timestep
        push_cast at hb
        linarith
      obtain ⟨n, heq, hdisj⟩ := ih
        ⟨physicsStep ξ sqrt (st.sim.timestep * st.sim.scale) st.bodies,
         { st.sim with accumulator := st.sim.accumulator - st.sim.timestep }⟩ hp ht hb2
      refine ⟨n + 1, ?_, ?_⟩
      · rw [hrun, heq]
        simp only [List.replicate_succ, Function.iterate_succ_apply, Prod.mk.injEq,
          NState.mk.injEq, Simulation.mk.injEq, and_true, true_and]
        push_cast
        ring
      · rcases hdisj with ⟨h1, hn0⟩ | ⟨h1, h2, h3⟩
        · subst hn0
          have k1 : st.sim.accumulator - st.sim.timestep ≤ st.sim.timestep := h1
          right
          refine ⟨hc, by push_cast; linarith, by push_cast; linarith⟩
        · have k2 : 0 < st.sim.accumulator - st.sim.timestep - n * st.sim.timestep := h2
          have k3 : st.sim.accumulator - st.sim.timestep - n * st.sim.timestep
              ≤ st.sim.timestep := h3
          right
          refine ⟨hc, ?_, ?_⟩
          · push_cast
            push_cast at k2
            linarith
          · push_cast
            push_cast at k3
            linarith
    · have hstep := step_of_not_cond st.sim (fun h => hc h.2)
      have hrun : runSteps ξ sqrt (m + 1) st = ([], st) := by
        simp only [runSteps, hstep]
      refine ⟨0, ?_, Or.inl ⟨le_of_not_lt hc, rfl⟩⟩
      rw [hrun]
      simp

theorem runFrames_spec (ξ : α) (sqrt : α → α) (fuel : ℕ) (ds : List α) :
    ∀ st : NState α, st.sim.is_paused = false → 0 < st.sim.timestep →
      (∀ d ∈ ds, 0 ≤ d) → 0 ≤ st.sim.accumulator →
      st.sim.accumulator ≤ st.sim.timestep →
      st.sim.accumulator + ds.sum ≤ ((fuel : α) + 1) * st.sim.timestep →
      ∃ N : ℕ,
        runFrames ξ sqrt fuel ds st
          = (List.replicate N (st.sim.timestep * st.sim.scale),
             ⟨(physicsStep ξ sqrt (st.sim.timestep * st.sim.scale))^[N] st.bodies,
              { st.sim with
                accumulator := st.sim.accumulator + ds.sum - N * st.sim.timestep }⟩) ∧
        0 ≤ st.sim.accumulator + ds.sum - N * st.sim.timestep ∧
        st.sim.accumulator + ds.sum - N * st.sim.timestep ≤ st.sim.timestep ∧
        (st.sim.accumulator + ds.sum - N * st.sim.timestep = 0 →
          st.sim.accumulator + ds.sum = 0) := by
  induction ds with
  | nil =>
    intro st hp ht _ ha hat _
    refine ⟨0, ?_, by simpa using ha, by simpa using hat, by intro h; simpa using h⟩
    rw [show runFrames ξ sqrt fuel [] st = ([], st) from rfl]
    simp
  | cons d ds ih =>
    intro st hp ht hnn ha hat hb
    have hd0 : 0 ≤ d := hnn d (List.mem_cons_self d ds)
    have hsum0 : 0 ≤ ds.sum :=
      List.sum_nonneg fun x hx => hnn x (List.mem_cons_of_mem d hx)
    have hsum : (d :: ds).sum = d + ds.sum := by simp
    have hupd : st.sim.update d = { st.sim with accumulator := st.sim.accumulator + d } := by
      simp [Simulation.update, hp]
    have hb1 : (⟨st.bodies, { st.sim with accumulator := st.sim.accumulator + d }⟩
        : NState α).sim.accumulator
        ≤ ((fuel : α) + 1)
          * (⟨st.bodies, { st.sim with accumulator := st.sim.accumulator + d }⟩
            : NState α).sim.timestep := by
      show st.sim.accumulator + d ≤ ((fuel : α) + 1) * st.sim.timestep
      rw [hsum] at hb
      linarith
    obtain ⟨n, heq1, hdisj1⟩ := runSteps_spec ξ sqrt fuel
      ⟨st.bodies, { st.sim with accumulator := st.sim.accumulator + d }⟩ hp ht hb1
    have heq1' : runSteps ξ sqrt fuel
        ⟨st.bodies, { st.sim with accumulator := st.sim.accumulator + d }⟩
        = (List.replicate n (st.sim.timestep * st.sim.scale),
           ⟨(physicsStep ξ sqrt (st.sim.timestep * st.sim.scale))^[n] st.bodies,
            { st.sim with
              accumulator := st.sim.accumulator + d - n * st.sim.timestep }⟩) := heq1
    have hdisj1' : (st.sim.accumulator + d ≤ st.sim.timestep ∧ n = 0) ∨
        (st.sim.timestep < st.sim.accumulator + d ∧
          0 < st.sim.accumulator + d - n * st.sim.timestep ∧
          st.sim.accumulator + d - n * st.sim.timestep ≤ st.sim.timestep) := hdisj1
    have hacc1a : 0 ≤ st.sim.accumulator + d - n * st.sim.timestep := by
      rcases hdisj1' with ⟨h1, hn0⟩ | ⟨h1, h2, h3⟩
      · rw [hn0]
        push_cast
        linarith
      · linarith
    have hacc1b : st.sim.accumulator + d - n * st.sim.timestep ≤ st.sim.timestep := by
      rcases hdisj1' with ⟨h1, hn0⟩ | ⟨h1, h2, h3⟩
      · rw [hn0]
        push_cast
        linarith
      · linarith
    have hkey : st.sim.accumulator + d - n * st.sim.timestep = 0 →
        st.sim.accumulator + d = 0 := by
      intro h0
      rcases hdisj1' with ⟨h1, hn0⟩ | ⟨h1, h2, h3⟩
      · rw [hn0] at h0
        push_cast at h0
        linarith
      · linarith
    have hb2 : (⟨(physicsStep ξ sqrt (st.sim.timestep * st.sim.scale))^[n] st.bodies,
        { st.sim with accumulator := st.sim.accumulator + d - n * st.sim.timestep }⟩
          : NState α).sim.accumulator + ds.sum
        ≤ ((fuel : α) + 1)
          * (⟨(physicsStep ξ sqrt (st.sim.timestep * st.sim.scale))^[n] st.bodies,
              { st.sim with accumulator := st.sim.accumulator + d - n * st.sim.timestep }⟩
            : NState α).sim.timestep := by
      show st.sim.accumulator + d - n * st.sim.timestep + ds.sum
        ≤ ((fuel : α) + 1) * st.sim.timestep
      have hnt : 0 ≤ (n : α) * st.sim.timestep := by positivity
      rw [hsum] at hb
      linarith
    obtain ⟨N2, heq2, hi1, hi2, hi3⟩ := ih
      ⟨(physicsStep ξ sqrt (st.sim.timestep * st.sim.scale))^[n] st.bodies,
       { st.sim with accumulator := st.sim.accumulator + d - n * st.sim.timestep }⟩
      hp ht (fun x hx => hnn x (List.mem_cons_of_mem d hx)) hacc1a hacc1b hb2
    have heq2' : runFrames ξ sqrt fuel ds
        ⟨(physicsStep ξ sqrt (st.sim.timestep * st.sim.scale))^[n] st.bodies,
         { st.sim with accumulator := st.sim.accumulator + d - n * st.sim.timestep }⟩
        = (List.replicate N2 (st.sim.timestep * st.sim.scale),
           ⟨(physicsStep ξ sqrt (st.sim.timestep * st.sim.scale))^[N2]
              ((physicsStep ξ sqrt (st.sim.timestep * st.sim.scale))^[n] st.bodies),
            { st.sim with
              accumulator := st.sim.accumulator + d - n * st.sim.timestep + ds.sum
                - N2 * st.sim.timestep }⟩) := heq2
    have hi1' : 0 ≤ st.sim.accumulator + d - n * st.sim.timestep + ds.sum
        - N2 * st.sim.timestep := hi1
    have hi2' : st.sim.accumulator + d - n * st.sim.timestep + ds.sum
        - N2 * st.sim.timestep ≤ st.sim.timestep := hi2
    have hi3' : st.sim.accumulator + d - n * st.sim.timestep + ds.sum
          - N2 * st.sim.timestep = 0 →
        st.sim.accumulator + d - n * st.sim.timestep + ds.sum = 0 := hi3
    refine ⟨n + N2, ?_, ?_, ?_, ?_⟩
    · simp only [runFrames, hupd, heq1', heq2']
      simp only [List.append_replicate_replicate, Prod.mk.injEq, NState.mk.injEq,
        Simulation.mk.injEq, and_true, true_and, List.sum_cons]
      constructor
      · rw [← Function.iterate_add_apply, Nat.add_comm N2 n]
      · push_cast
        ring
    · rw [hsum]
      push_cast
      linarith
    · rw [hsum]
      push_cast
      linarith
    · intro h0
      rw [hsum] at h0 ⊢
      push_cast at h0
      have e1 : st.sim.accumulator + d - n * st.sim.timestep + ds.sum = 0 :=
        hi3' (by linarith)
      have e2 : st.sim.accumulator + d - n * st.sim.timestep = 0 := by linarith
      have e4 := hkey e2
      linarith

theorem settle_count_unique {t S : α} (ht : 0 < t) {N1 N2 : ℕ}
    (i1a : 0 ≤ S - N1 * t) (i1b : S - N1 * t ≤ t) (i1c : S - N1 * t = 0 → S = 0)
    (i2a : 0 ≤ S - N2 * t) (i2b : S - N2 * t ≤ t) (i2c : S - N2 * t = 0 → S = 0) :
    N1 = N2 := by
  have key : ∀ {Na Nb : ℕ}, Na < Nb → S - Na * t ≤ t → 0 ≤ S - Nb * t →
      (S - Nb * t = 0 → S = 0) → False := by
    intro Na Nb hlt hb1 ha2 hc2
    have c1 : (Na : α) + 1 ≤ (Nb : α) := by exact_mod_cast hlt
    have habove : t ≤ ((Nb : α) - Na) * t :=
      le_mul_of_one_le_left (le_of_lt ht) (by linarith)
    have ha2' : S - Nb * t = 0 := by linarith
    have hS := hc2 ha2'
    have h1' : (1 : α) ≤ (Nb : α) := by
      have := Nat.cast_nonneg (α := α) Na
      linarith
    have hbt : t ≤ (Nb : α) * t := le_mul_of_one_le_left (le_of_lt ht) h1'
    rw [hS] at ha2'
    linarith
  rcases Nat.lt_trichotomy N1 N2 with h | h | h
  · exact (key h i1b i2a i2c).elim
  · exact h
  · exact (key h i2b i1a i1c).elim

/-- C5: the physical state after consuming a given total of wall-clock time
does not depend on how that total is cut into frames: two sequences of
nonnegative frame deltas with equal sums, each processed as
update-then-exhaustive-steps, produce the same sequence of fixed-size `dt`
values (the same number of `timestep * scale` steps) and the same final
bodies and clock state. -/
theorem claim5_frame_rate_independence (ξ : α) (sqrt : α → α)
    (fuel1 fuel2 : ℕ) (ds1 ds2 : List α) (bodies : List (Body α)) (sim : Simulation α)
    (hp : sim.is_paused = false) (ht : 0 < sim.timestep) (ha : sim.accumulator = 0)
    (h1 : ∀ d ∈ ds1, 0 ≤ d) (h2 : ∀ d ∈ ds2, 0 ≤ d) (hs : ds1.sum = ds2.sum)
    (hf1 : ds1.sum ≤ ((fuel1 : α) + 1) * sim.timestep)
    (hf2 : ds2.sum ≤ ((fuel2 : α) + 1) * sim.timestep) :
    runFrames ξ sqrt fuel1 ds1 ⟨bodies, sim⟩ = runFrames ξ sqrt fuel2 ds2 ⟨bodies, sim⟩ := by
  have hat : sim.accumulator ≤ sim.timestep := by
    rw [ha]
    exact le_of_lt ht
  have ha0 : (0 : α) ≤ sim.accumulator := le_of_eq ha.symm
  obtain ⟨N1, e1, i1a, i1b, i1c⟩ := runFrames_spec ξ sqrt fuel1 ds1 ⟨bodies, sim⟩
    hp ht h1 ha0 hat (by show sim.accumulator + ds1.sum ≤ _; rw [ha]; simpa using hf1)
  obtain ⟨N2, e2, i2a, i2b, i2c⟩ := runFrames_spec ξ sqrt fuel2 ds2 ⟨bodies, sim⟩
    hp ht h2 ha0 hat (by show sim.accumulator + ds2.sum ≤ _; rw [ha]; simpa using hf2)
  have i1a' : 0 ≤ ds1.sum - N1 * sim.timestep := by
    have : 0 ≤ sim.accumulator + ds1.sum - N1 * sim.timestep := i1a
    rw [ha] at this
    linarith
  have i1b' : ds1.sum - N1 * sim.timestep ≤ sim.timestep := by
    have : sim.accumulator + ds1.sum - N1 * sim.timestep ≤ sim.timestep := i1b
    rw [ha] at this
    linarith
  have i1c' : ds1.sum - N1 * sim.timestep = 0 → ds1.sum = 0 := by
    intro h0
    have : sim.accumulator + ds1.sum - N1 * sim.timestep = 0 → sim.accumulator + ds1.sum = 0 := i1c
    rw [ha] at this
    have := this (by linarith)
    linarith
  have i2a' : 0 ≤ ds1.sum - N2 * sim.timestep := by
    have : 0 ≤ sim.accumulator + ds2.sum - N2 * sim.timestep := i2a
    rw [ha, ← hs] at this
    linarith
  have i2b' : ds1.sum - N2 * sim.timestep ≤ sim.timestep := by
    have : sim.accumulator + ds2.sum - N2 * sim.timestep ≤ sim.timestep := i2b
    rw [ha, ← hs] at this
    linarith
  have i2c' : ds1.sum - N2 * sim.timestep = 0 → ds1.sum = 0 := by
    intro h0
    have : sim.accumulator + ds2.sum - N2 * sim.timestep = 0 → sim.accumulator + ds2.sum = 0 := i2c
    rw [ha, ← hs] at this
    have := this (by linarith)
    linarith
  have hN : N1 = N2 := settle_count_unique ht i1a' i1b' i1c' i2a' i2b' i2c'
  have e1' : runFrames ξ sqrt fuel1 ds1 ⟨bodies, sim⟩
      = (List.replicate N1 (sim.timestep * sim.scale),
         ⟨(physicsStep ξ sqrt (sim.timestep * sim.scale))^[N1] bodies,
          { sim with accumulator := sim.accumulator + ds1.sum - N1 * sim.timestep }⟩) := e1
  have e2' : runFrames ξ sqrt fuel2 ds2 ⟨bodies, sim⟩
      = (List.replicate N2 (sim.timestep * sim.scale),
         ⟨(physicsStep ξ sqrt (sim.timestep * sim.scale))^[N2] bodies,
          { sim with accumulator := sim.accumulator + ds2.sum - N2 * sim.timestep }⟩) := e2
  rw [e1', e2', hN, hs]

/-- C5 witness: one body, total 1/15 s of wall time fed either as a single
frame or as two 1/30 s frames, over `ℚ` with default settings. -/
theorem claim5_frame_rate_independence_witness :
    runFrames (1 : ℚ) id 1 [1 / 15]
        ⟨[⟨1000, 0, 0, (1, 2, 3)⟩], Simulation.default⟩
      = runFrames (1 : ℚ) id 1 [1 / 30, 1 / 30]
        ⟨[⟨1000, 0, 0, (1, 2, 3)⟩], Simulation.default⟩ :=
  claim5_frame_rate_independence 1 id 1 1 [1 / 15] [1 / 30, 1 / 30] _ _
    rfl (by norm_num [Simulation.default]) rfl
    (by intro d hd; simp only [List.mem_singleton] at hd; rw [hd]; norm_num)
    (by intro d hd; simp at hd; rw [hd]; norm_num)
    (by norm_num [List.sum_cons, List.sum_nil])
    (by norm_num [Simulation.default, List.sum_cons, List.sum_nil])
    (by norm_num [Simulation.default, List.sum_cons, List.sum_nil])

theorem trailPush_length_le {β : Type*} (cap : ℕ) (hcap : 0 < cap) (t : List β) (x : β)
    (h : t.length ≤ cap) : (trailPush cap t x).length ≤ cap := by
  unfold trailPush
  split_ifs with hlt
  · simp only [List.length_append, List.length_cons, List.length_nil]
    omega
  · have hlen : t.length = cap := by omega
    simp only [List.length_append, List.length_cons, List.length_nil, List.length_tail]
    omega

theorem trailPushAll_eq {β : Type*} (cap : ℕ) (hcap : 0 < cap) :
    ∀ (L t : List β), t.length ≤ cap →
      trailPushAll cap t L = (t ++ L).drop (t.length + L.length - cap) := by
  intro L
  induction L with
  | nil =>
    intro t h
    have h0 : t.length + List.length ([] : List β) - cap = 0 := by
      simp only [List.length_nil]
      omega
    rw [show trailPushAll cap t [] = t from rfl, h0]
    simp
  | cons x L ih =>
    intro t h
    rw [show trailPushAll cap t (x :: L) = trailPushAll cap (trailPush cap t x) L from rfl]
    by_cases hlt : t.length < cap
    · have hpush : trailPush cap t x = t ++ [x] := by simp [trailPush, hlt]
      rw [hpush, ih (t ++ [x]) (by simp only [List.length_append, List.length_cons, List.length_nil]; omega)]
      have e1 : (t ++ [x]) ++ L = t ++ x :: L := by simp
      have e2 : (t ++ [x]).length + L.length - cap = t.length + (x :: L).length - cap := by
        simp only [List.length_append, List.length_cons, List.length_nil]
        omega
      rw [e1, e2]
    · have hlen : t.length = cap := by omega
      have hne : t ≠ [] := by
        intro he
        rw [he] at hlen
        simp at hlen
        omega
      have hpush : trailPush cap t x = t.tail ++ [x] := by simp [trailPush, hlt]
      have htl : t.tail.length = cap - 1 := by
        rw [List.length_tail, hlen]
      rw [hpush, ih (t.tail ++ [x])
        (by simp only [List.length_append, List.length_cons, List.length_nil, htl]; omega)]
      have e1 : (t.tail ++ [x]) ++ L = t.tail ++ x :: L := by simp
      have e2 : (t.tail ++ [x]).length + L.length - cap = L.length := by
        simp only [List.length_append, List.length_cons, List.length_nil, htl]
        omega
      have e3 : t.length + (x :: L).length - cap = L.length + 1 := by
        simp only [hlen, List.length_cons]
        omega
      rw [e1, e2, e3]
      obtain ⟨y, t2, rfl⟩ : ∃ y t2, t = y :: t2 := by
        cases t with
        | nil => exact absurd rfl hne
        | cons y t2 => exact ⟨y, t2, rfl⟩
      rw [show ((y :: t2) ++ x :: L) = y :: (t2 ++ x :: L) from rfl, List.drop_succ_cons,
        List.tail_cons]

/-- C7: appending `TRAIL_LENGTH + 5` samples to an empty trail buffer of
capacity `TRAIL_LENGTH` (= 128) leaves exactly `TRAIL_LENGTH` entries, and
those entries are the most recent `TRAIL_LENGTH` appended samples in
insertion order, oldest first; a push never grows a buffer past capacity. -/
theorem claim7_trail_capacity {β : Type*} (L : List β) (h : L.length = TRAIL_LENGTH + 5) :
    trailPushAll TRAIL_LENGTH [] L = L.drop 5 ∧
    (trailPushAll TRAIL_LENGTH [] L).length = TRAIL_LENGTH ∧
    ∀ (t : List β) (x : β), t.length ≤ TRAIL_LENGTH →
      (trailPush TRAIL_LENGTH t x).length ≤ TRAIL_LENGTH := by
  have hcap : 0 < TRAIL_LENGTH := by norm_num [TRAIL_LENGTH]
  have he : trailPushAll TRAIL_LENGTH [] L = L.drop 5 := by
    rw [trailPushAll_eq TRAIL_LENGTH hcap L [] (by simp),
      show List.length ([] : List β) + L.length - TRAIL_LENGTH = 5 by
        simp only [List.length_nil, h]
        omega]
    simp
  refine ⟨he, ?_, fun t x hle => trailPush_length_le TRAIL_LENGTH hcap t x hle⟩
  rw [he, List.length_drop, h]
  omega

/-- C7 witness: 133 samples over `ℕ`, and one push on a full buffer. -/
theorem claim7_trail_capacity_witness :
    trailPushAll TRAIL_LENGTH [] (List.range 133) = (List.range 133).drop 5 ∧
    (trailPushAll TRAIL_LENGTH [] (List.range 133)).length = TRAIL_LENGTH ∧
    (trailPush TRAIL_LENGTH (List.range 128) 7).length ≤ TRAIL_LENGTH :=
  ⟨(claim7_trail_capacity (List.range 133) (by simp [TRAIL_LENGTH])).1,
   (claim7_trail_capacity (List.range 133) (by simp [TRAIL_LENGTH])).2.1,
   (claim7_trail_capacity (List.range 133) (by simp [TRAIL_LENGTH])).2.2
     (List.range 128) 7 (by simp [TRAIL_LENGTH])⟩

omit [LinearOrderedField α] in
theorem zipWith_set_body (es : List (BodyEntity α)) :
    List.zipWith (fun ent b => { ent with body := b }) es (es.map fun ent => ent.body)
      = es := by
  induction es with
  | nil => rfl
  | cons x xs ih =>
    simp only [List.map_cons, List.zipWith_cons_cons, ih]

/-- C10: while paused, a frame invocation leaves every body's position,
velocity and acceleration unchanged (no integration step runs) and leaves the
clock untouched, yet trail recording continues: the trail timer still advances
by the frame's elapsed time, and whenever the interval elapses each body's
current (stationary) position is appended to its trail and the trail is
republished as the polyline. -/
theorem claim10_paused_trail_recording (ξ : α) (sqrt : α → α) (fuel : ℕ) (e : α)
    (st : SysState α) (hp : st.sim.is_paused = true) :
    frame ξ sqrt fuel e st =
      ⟨if (st.timer.tick e).2 then
          st.entities.map fun ent =>
            let tr := trailPush TRAIL_LENGTH ent.trail ent.body.position
            { ent with
              trail := tr
              poly_line := tr }
        else st.entities,
       st.sim, (st.timer.tick e).1⟩ := by
  have hu : st.sim.update e = st.sim := by
    simp [Simulation.update, hp]
  have hstep : (st.sim).step = (none, st.sim) :=
    step_of_not_cond st.sim (fun h => h.1 (by simp [hp]))
  have hrs : runSteps ξ sqrt fuel ⟨st.entities.map (fun ent => ent.body), st.sim.update e⟩
      = ([], ⟨st.entities.map (fun ent => ent.body), st.sim⟩) := by
    rw [hu]
    cases fuel with
    | zero => rfl
    | succ m => simp only [runSteps, hstep]
  simp only [frame, hrs, zipWith_set_body]

/-- C10 witness: one paused body over `ℚ`, with a 25 ms-style timer that
fires on this frame. -/
theorem claim10_paused_trail_recording_witness :
    (⟨[⟨⟨1000, 0, 0, (1, 2, 3)⟩, [], []⟩],
        { Simulation.default with is_paused := true }, ⟨0, 1 / 40⟩⟩
      : SysState ℚ).sim.is_paused = true ∧
    frame (1 : ℚ) id 2 (1 / 40)
        ⟨[⟨⟨1000, 0, 0, (1, 2, 3)⟩, [], []⟩],
         { Simulation.default with is_paused := true }, ⟨0, 1 / 40⟩⟩
      = ⟨if ((⟨0, 1 / 40⟩ : TrailTimer ℚ).tick (1 / 40)).2 then
            [(⟨⟨1000, 0, 0, (1, 2, 3)⟩, [], []⟩ : BodyEntity ℚ)].map fun ent =>
              let tr := trailPush TRAIL_LENGTH ent.trail ent.body.position
              { ent with
                trail := tr
                poly_line := tr }
          else [⟨⟨1000, 0, 0, (1, 2, 3)⟩, [], []⟩],
         { Simulation.default with is_paused := true },
         ((⟨0, 1 / 40⟩ : TrailTimer ℚ).tick (1 / 40)).1⟩ :=
  ⟨rfl, claim10_paused_trail_recording 1 id 2 (1 / 40) _ rfl⟩

end NBody
